import Mathlib

/-!
Verification development for SlideSlowGenerator (`process.py`).

The program has two parts:
* a canvas compositor (`crop_to_aspect_ratio`, `process_image`), pure
  geometry on image dimensions, embedded here with Python float arithmetic
  modelled as exact rational arithmetic and `int()` truncation modelled by
  `Nat.floor` (all truncated values in the program are nonnegative, where
  truncation toward zero and floor agree);
* a ledger-synced directory walker (`load_processed_images`,
  `save_processed_images`, `resize_images_in_folder`), embedded as a pure
  function from the run's inputs (discovered paths in walk order, ledger
  file content, output files on disk) to the run's effects (persisted
  ledger, written outputs, deleted outputs).  A per-file decode/save
  failure raises an exception in the source which propagates out of the
  walk; this is embedded with `Except Unit`.
-/

/-- An in-memory image buffer, abstracted to its pixel dimensions.  Pixel
contents, color mode and EXIF data play no role in any claim, so they are
not modelled. -/
structure Img where
  width : ℕ
  height : ℕ
deriving DecidableEq

/-- A PIL crop box: (left, upper, right, lower), as passed to
`image.crop` in `crop_to_aspect_ratio` (process.py line 39). -/
structure Box where
  left : ℕ
  upper : ℕ
  right : ℕ
  lower : ℕ
deriving DecidableEq

/-- PIL `Image.crop`: the result has width `right - left` and height
`lower - upper`. -/
def Img.crop (_img : Img) (b : Box) : Img :=
  ⟨b.right - b.left, b.lower - b.upper⟩

/-- PIL `Image.resize`: the result has exactly the requested size. -/
def Img.resize (_img : Img) (s : ℕ × ℕ) : Img :=
  ⟨s.1, s.2⟩

/-- PIL `ImageFilter.GaussianBlur`: dimensions unchanged. -/
def gaussianBlur (img : Img) (_radius : ℕ) : Img := img

/-- PIL `Image.paste` pastes in place: the background keeps its size. -/
def Img.paste (bg : Img) (_img : Img) (_pos : ℕ × ℕ) : Img := bg

/-- Python 3 `round`: nearest integer, ties to even. -/
def pyRound (q : ℚ) : ℤ :=
  if q - ⌊q⌋ < 1 / 2 then ⌊q⌋
  else if 1 / 2 < q - ⌊q⌋ then ⌊q⌋ + 1
  else if ⌊q⌋ % 2 = 0 then ⌊q⌋ else ⌊q⌋ + 1

/-- PIL `ImageOps.contain`: resize preserving the aspect of the source so
that the result fits inside `s`. -/
def contain (img : Img) (s : ℕ × ℕ) : Img :=
  let imR : ℚ := (img.width : ℚ) / (img.height : ℚ)
  let dR : ℚ := (s.1 : ℚ) / (s.2 : ℚ)
  if imR = dR then img.resize s
  else if imR > dR then
    img.resize (s.1, (pyRound ((img.height : ℚ) / (img.width : ℚ) * (s.1 : ℚ))).toNat)
  else
    img.resize ((pyRound ((img.width : ℚ) / (img.height : ℚ) * (s.2 : ℚ))).toNat, s.2)

/-- The crop box computed by `crop_to_aspect_ratio` (process.py lines
16-36): if the image is wider than `tr`, keep the height and crop the
width to `int(height * tr)` centered; otherwise keep the width and crop
the height to `int(width / tr)` centered.  `right = left + new_width` and
`lower = upper + new_height` as in the source. -/
def cropBox (w h : ℕ) (tr : ℚ) : Box :=
  if (w : ℚ) / (h : ℚ) > tr then
    let nw := ⌊(h : ℚ) * tr⌋₊
    let l := (w - nw) / 2
    ⟨l, 0, l + nw, 0 + h⟩
  else
    let nh := ⌊(w : ℚ) / tr⌋₊
    let u := (h - nh) / 2
    ⟨0, u, 0 + w, u + nh⟩

/-- `crop_to_aspect_ratio` (process.py lines 5-39). -/
def crop_to_aspect_ratio (img : Img) (tr : ℚ) : Img :=
  img.crop (cropBox img.width img.height tr)

/-- The intermediate 5:3 canvas dimensions computed by `process_image`
(process.py lines 57-63). -/
def intermediateDims (w h : ℕ) : ℕ × ℕ :=
  if (w : ℚ) / (h : ℚ) > 5 / 3 then (w, ⌊(w : ℚ) / (5 / 3)⌋₊)
  else (⌊(h : ℚ) * (5 / 3)⌋₊, h)

/-- The pure image transformation of `process_image` (process.py lines
46-85): given the decoded, exif-transposed source image, the image that
is saved to the output path. -/
def process_image_transform (img : Img) (blurred_background : Bool)
    (target_width target_height : ℕ) : Img :=
  let dims := intermediateDims img.width img.height
  let paste_position := ((dims.1 - img.width) / 2, (dims.2 - img.height) / 2)
  let background :=
    if blurred_background then
      contain (crop_to_aspect_ratio (gaussianBlur img 25) (5 / 3)) dims
    else
      Img.mk dims.1 dims.2
  (background.paste img paste_position).resize (target_width, target_height)

/-- One ledger entry (process.py lines 131-134). -/
structure Entry where
  input_path : String
  output_path : String
deriving DecidableEq

/-- What `json.load` produced from the ledger file when it parsed:
either a JSON array of entries or some other JSON value. -/
inductive JsonData where
  | jlist (entries : List Entry)
  | other
deriving DecidableEq

/-- The state of the ledger file on disk as `load_processed_images`
finds it: absent, present but unparsable (empty file or malformed JSON,
where `json.load` raises), or present with valid JSON. -/
inductive LedgerFileState where
  | absent
  | badJson
  | goodJson (d : JsonData)
deriving DecidableEq

/-- `load_processed_images` (process.py lines 91-100).  Returns the list
the walker starts from and whether the invalid-JSON warning was printed. -/
def load_processed_images : LedgerFileState → List Entry × Bool
  | .absent => ([], false)
  | .badJson => ([], true)
  | .goodJson (.jlist l) => (l, false)
  | .goodJson .other => ([], false)

/-- The numbered output filename built at process.py line 127:
`os.path.join` of the output folder and the decimal index followed by
the `.jpg` extension. -/
def outName (output_folder : String) (idx : ℕ) : String :=
  output_folder ++ "/" ++ Nat.repr idx ++ ".jpg"

/-- The starting value of `image_index` (process.py lines 110-112):
the loaded ledger's length, incremented once when it is nonzero. -/
def initIndex (n : ℕ) : ℕ := if n = 0 then 0 else n + 1

/-- The walker's in-memory state during the directory walk:
`processed_images`, the membership set `processed_paths`, `image_index`,
and the output files written so far in this run. -/
structure WalkState where
  processed_images : List Entry
  processed_paths : List String
  image_index : ℕ
  written : List String
deriving DecidableEq

/-- The state change for one newly processed file (process.py lines
126-136). -/
def stepState (of : String) (s : WalkState) (p : String) : WalkState :=
  ⟨s.processed_images ++ [⟨p, outName of s.image_index⟩],
   s.processed_paths ++ [p],
   s.image_index + 1,
   s.written ++ [outName of s.image_index]⟩

/-- The walk over the discovered files (process.py lines 113-136).
`ok p` tells whether `process_image` succeeds on input `p`; the source
has no exception handling, so one failing file aborts the whole walk. -/
def walkFiles (of : String) (ok : String → Bool) :
    List String → WalkState → Except Unit WalkState
  | [], s => .ok s
  | p :: ps, s =>
    if p ∈ s.processed_paths then walkFiles of ok ps s
    else if ok p then walkFiles of ok ps (stepState of s p)
    else .error ()

/-- The prune loop (process.py lines 138-147): entries whose input is
still discovered are kept; for the others the output file is removed
when it exists.  Returns the kept entries and the deleted output files;
the disk is threaded because `os.remove` changes what exists. -/
def pruneLoop (discovered : List String) :
    List Entry → List String → List Entry × List String
  | [], _ => ([], [])
  | e :: es, disk =>
    if e.input_path ∈ discovered then
      let r := pruneLoop discovered es disk
      (e :: r.1, r.2)
    else if e.output_path ∈ disk then
      let r := pruneLoop discovered es (disk.erase e.output_path)
      (r.1, e.output_path :: r.2)
    else pruneLoop discovered es disk

/-- The output files existing after the walk phase: the initial disk
plus everything written during the walk. -/
def diskAfterWalk (disk : List String) (written : List String) : List String :=
  written.foldl (fun d p => if p ∈ d then d else d ++ [p]) disk

/-- The observable outcome of one run: the ledger passed to
`save_processed_images`, the output files written, and the output files
deleted by pruning. -/
structure RunResult where
  ledger : List Entry
  written : List String
  deleted : List String
deriving DecidableEq

/-- `resize_images_in_folder` (process.py lines 106-150), as a function
of the run's inputs: the output folder, which inputs decode and save
successfully (`ok`), the discovered input paths in walk order, the
ledger file's state, and the output files on disk.  An unhandled
per-file exception aborts the run before anything is persisted. -/
def resize_images_in_folder (output_folder : String) (ok : String → Bool)
    (discovered : List String) (lf : LedgerFileState) (disk : List String) :
    Except Unit RunResult :=
  let loaded := (load_processed_images lf).1
  let s0 : WalkState :=
    ⟨loaded, loaded.map Entry.input_path, initIndex loaded.length, []⟩
  match walkFiles output_folder ok discovered s0 with
  | .error e => .error e
  | .ok s =>
    let pr := pruneLoop discovered s.processed_images (diskAfterWalk disk s.written)
    .ok ⟨pr.1, s.written, pr.2⟩

/-- The walk state `resize_images_in_folder` starts from (process.py
lines 108-112). -/
def startState (lf : LedgerFileState) : WalkState :=
  ⟨(load_processed_images lf).1, (load_processed_images lf).1.map Entry.input_path,
   initIndex (load_processed_images lf).1.length, []⟩

/-- The output files a run wrote (none when the run aborted). -/
def runWritten : Except Unit RunResult → List String
  | .ok r => r.written
  | .error _ => []

/-- The ledger a run persisted (on an abort nothing is persisted; for
stating claims the aborted case maps to the empty list). -/
def runLedger : Except Unit RunResult → List Entry
  | .ok r => r.ledger
  | .error _ => []

/-- The output names assigned to `k` consecutively processed files
starting at index `start`. -/
def namesFrom (of : String) : ℕ → ℕ → List String
  | _, 0 => []
  | start, k + 1 => outName of start :: namesFrom of (start + 1) k

/-- The ledger entries appended for newly processed files `ps` starting
at index `start`. -/
def newEntries (of : String) : ℕ → List String → List Entry
  | _, [] => []
  | start, p :: ps => ⟨p, outName of start⟩ :: newEntries of (start + 1) ps

/-- Every recorded output name is a numbered name of the output folder
with index at most the ledger's length.  This is the invariant that
makes freshly assigned indices collision-free in runs that prune
nothing. -/
def NamesBounded (of : String) (L : List Entry) : Prop :=
  ∀ e ∈ L, ∃ n ∈ List.range (L.length + 1), e.output_path = outName of n

instance namesBoundedDec (of : String) (L : List Entry) : Decidable (NamesBounded of L) :=
  inferInstanceAs
    (Decidable (∀ e ∈ L, ∃ n ∈ List.range (L.length + 1), e.output_path = outName of n))

/-- Decimal digit reader, the left inverse used to show `Nat.repr` is
injective. -/
def parseDigits (a : ℕ) (l : List Char) : ℕ :=
  l.foldl (fun acc c => acc * 10 + (c.toNat - 48)) a

/-- Output folder used by the concrete witness runs. -/
def sOut : String := "out"

/-- Concrete input paths for witness runs. -/
def pA : String := "in/a.jpg"

def pB : String := "in/b.jpg"

def pC : String := "in/c.jpg"

def pD : String := "in/d.jpg"

def pE : String := "in/e.jpg"

/-- A concrete input that fails to decode. -/
def pBad : String := "in/bad.jpg"

/-- Every file processes successfully. -/
def okAll : String → Bool := fun _ => true

/-- Every file but `pBad` processes successfully. -/
def okBad : String → Bool := fun p => p != pBad

/-- A loaded ledger with three entries, outputs 0.jpg, 1.jpg, 2.jpg. -/
def ledger3 : List Entry :=
  [⟨pA, outName sOut 0⟩, ⟨pB, outName sOut 1⟩, ⟨pC, outName sOut 2⟩]

/-- Result of the first witness run for idempotence. -/
def R1 : RunResult := ⟨[⟨pA, outName sOut 0⟩], [outName sOut 0], []⟩

/-- A one-entry loaded ledger for the fresh-numbering witness. -/
def L4 : List Entry := [⟨pA, outName sOut 0⟩]

/-- Result of the fresh-numbering witness run: the new file gets index 2
(ledger length 1, incremented start). -/
def R4 : RunResult :=
  ⟨[⟨pA, outName sOut 0⟩, ⟨pB, outName sOut 2⟩], [outName sOut 2], []⟩

/-- The ledger entry pruned in the deletion witness. -/
def eA : Entry := ⟨pA, outName sOut 0⟩

/-- Result of the deletion witness run: entry dropped, output deleted. -/
def R5 : RunResult := ⟨[], [], [outName sOut 0]⟩

/-- Run 1 of the number-reuse chain: input a becomes 0.jpg. -/
def chainRun1 : Except Unit RunResult :=
  resize_images_in_folder sOut okAll [pA] .absent []

/-- Run 2 of the chain: a is gone, b and c are new; they get 2.jpg and
3.jpg (length 1, incremented start) and a's 0.jpg is pruned. -/
def chainRun2 : Except Unit RunResult :=
  resize_images_in_folder sOut okAll [pB, pC]
    (.goodJson (.jlist (runLedger chainRun1))) [outName sOut 0]

/-- Run 3 of the chain: d is new; the ledger has length 2, so d gets
index 3 and reuses the name 3.jpg already held by c. -/
def chainRun3 : Except Unit RunResult :=
  resize_images_in_folder sOut okAll [pB, pC, pD]
    (.goodJson (.jlist (runLedger chainRun2))) [outName sOut 2, outName sOut 3]

theorem parseDigits_append (a : ℕ) (l1 l2 : List Char) :
    parseDigits a (l1 ++ l2) = parseDigits (parseDigits a l1) l2 := by
  simp [parseDigits, List.foldl_append]

theorem digitChar_toNat : ∀ m, m < 10 → (Nat.digitChar m).toNat = 48 + m := by decide

theorem toDigitsCore_append (fuel : ℕ) : ∀ (n : ℕ) (ds : List Char),
    Nat.toDigitsCore 10 fuel n ds = Nat.toDigitsCore 10 fuel n [] ++ ds := by
  induction fuel with
  | zero => intro n ds; simp [Nat.toDigitsCore]
  | succ f ih =>
    intro n ds
    simp only [Nat.toDigitsCore]
    by_cases h : n / 10 = 0
    · simp [h]
    · simp only [h, if_false]
      rw [ih (n / 10) (Nat.digitChar (n % 10) :: ds),
        ih (n / 10) [Nat.digitChar (n % 10)]]
      simp

theorem parseDigits_toDigitsCore (fuel : ℕ) : ∀ n a, n < fuel →
    parseDigits a (Nat.toDigitsCore 10 fuel n []) =
      a * 10 ^ (Nat.toDigitsCore 10 fuel n []).length + n := by
  induction fuel with
  | zero => intro n a h; omega
  | succ f ih =>
    intro n a h
    by_cases h0 : n / 10 = 0
    · have hn : n < 10 := by omega
      have hd : (Nat.digitChar (n % 10)).toNat = 48 + n := by
        rw [Nat.mod_eq_of_lt hn]; exact digitChar_toNat n hn
      simp [Nat.toDigitsCore, h0, parseDigits, hd]
    · have hlt : n / 10 < f := by omega
      have hstep : Nat.toDigitsCore 10 (f + 1) n [] =
          Nat.toDigitsCore 10 f (n / 10) [] ++ [Nat.digitChar (n % 10)] := by
        simp only [Nat.toDigitsCore, h0, if_false]
        exact toDigitsCore_append f (n / 10) [Nat.digitChar (n % 10)]
      rw [hstep, parseDigits_append, ih (n / 10) a hlt]
      simp only [parseDigits, List.foldl_cons, List.foldl_nil,
        digitChar_toNat (n % 10) (by omega), List.length_append, List.length_singleton]
      have hsub : 48 + n % 10 - 48 = n % 10 := by omega
      rw [hsub, pow_succ]
      have hdm : 10 * (n / 10) + n % 10 = n := Nat.div_add_mod n 10
      ring_nf
      omega

theorem parseDigits_repr (n : ℕ) : parseDigits 0 (Nat.repr n).data = n := by
  have h : (Nat.repr n).data = Nat.toDigitsCore 10 (n + 1) n [] := rfl
  rw [h, parseDigits_toDigitsCore (n + 1) n 0 (Nat.lt_succ_self n)]
  simp

theorem repr_data_inj {m n : ℕ} (h : (Nat.repr m).data = (Nat.repr n).data) :
    m = n := by
  have h2 := congrArg (parseDigits 0) h
  rwa [parseDigits_repr, parseDigits_repr] at h2

theorem outName_inj {of : String} {m n : ℕ} (h : outName of m = outName of n) :
    m = n := by
  apply repr_data_inj
  have hd : of.data ++ (String.data "/" ++ ((Nat.repr m).data ++ String.data ".jpg")) =
      of.data ++ (String.data "/" ++ ((Nat.repr n).data ++ String.data ".jpg")) := by
    have h2 := congrArg String.data h
    simpa [outName, List.append_assoc] using h2
  have h3 := List.append_cancel_left (List.append_cancel_left hd)
  exact List.append_inj_left' h3 rfl

theorem namesFrom_succ (of : String) (start k : ℕ) :
    namesFrom of start (k + 1) = outName of start :: namesFrom of (start + 1) k := rfl

theorem newEntries_map_input (of : String) :
    ∀ (start : ℕ) (ps : List String),
    (newEntries of start ps).map Entry.input_path = ps := by
  intro start ps
  induction ps generalizing start with
  | nil => simp [newEntries]
  | cons p ps ih => simp [newEntries, ih]

theorem newEntries_map_output (of : String) :
    ∀ (start : ℕ) (ps : List String),
    (newEntries of start ps).map Entry.output_path = namesFrom of start ps.length := by
  intro start ps
  induction ps generalizing start with
  | nil => simp [newEntries, namesFrom]
  | cons p ps ih => simp [newEntries, namesFrom, ih]

theorem namesFrom_mem (of : String) :
    ∀ (k start : ℕ) (w : String), w ∈ namesFrom of start k →
    ∃ i, i < k ∧ w = outName of (start + i) := by
  intro k
  induction k with
  | zero => intro start w hw; simp [namesFrom] at hw
  | succ k ih =>
    intro start w hw
    rw [namesFrom_succ] at hw
    rcases List.mem_cons.mp hw with h | h
    · exact ⟨0, by omega, by simpa using h⟩
    · obtain ⟨i, hi, hwi⟩ := ih (start + 1) w h
      exact ⟨i + 1, by omega, by rw [hwi]; ring_nf⟩

theorem namesFrom_nodup (of : String) :
    ∀ (k start : ℕ), (namesFrom of start k).Nodup := by
  intro k
  induction k with
  | zero => intro start; simp [namesFrom]
  | succ k ih =>
    intro start
    rw [namesFrom_succ]
    refine List.nodup_cons.mpr ⟨?_, ih (start + 1)⟩
    intro hmem
    obtain ⟨i, _, hi⟩ := namesFrom_mem of k (start + 1) _ hmem
    have := outName_inj hi
    omega

theorem newEntries_length (of : String) (start : ℕ) (ps : List String) :
    (newEntries of start ps).length = ps.length := by
  have h := congrArg List.length (newEntries_map_input of start ps)
  simpa using h

theorem newEntries_output_mem (of : String) (start : ℕ) (ps : List String)
    (e : Entry) (he : e ∈ newEntries of start ps) :
    ∃ i, i < ps.length ∧ e.output_path = outName of (start + i) := by
  have hmap : e.output_path ∈ namesFrom of start ps.length := by
    rw [← newEntries_map_output]
    exact List.mem_map_of_mem Entry.output_path he
  obtain ⟨i, hi, hw⟩ := namesFrom_mem of ps.length start _ hmap
  exact ⟨i, hi, hw⟩

theorem walkFiles_all_seen (of : String) (ok : String → Bool) :
    ∀ (D : List String) (s : WalkState), (∀ p ∈ D, p ∈ s.processed_paths) →
    walkFiles of ok D s = .ok s := by
  intro D
  induction D with
  | nil => intro s _; rfl
  | cons p ps ih =>
    intro s hall
    have hp : p ∈ s.processed_paths := hall p (List.mem_cons_self p ps)
    simp only [walkFiles, if_pos hp]
    exact ih s (fun q hq => hall q (List.mem_cons_of_mem p hq))

theorem walkFiles_all_new (of : String) (ok : String → Bool) :
    ∀ (D : List String) (s : WalkState), D.Nodup →
    (∀ p ∈ D, p ∉ s.processed_paths) → (∀ p ∈ D, ok p = true) →
    walkFiles of ok D s = .ok
      ⟨s.processed_images ++ newEntries of s.image_index D,
       s.processed_paths ++ D,
       s.image_index + D.length,
       s.written ++ namesFrom of s.image_index D.length⟩ := by
  intro D
  induction D with
  | nil => intro s _ _ _; simp [walkFiles, newEntries, namesFrom]
  | cons p ps ih =>
    intro s hnd hnew hok
    have hp : p ∉ s.processed_paths := hnew p (List.mem_cons_self p ps)
    have hokp : ok p = true := hok p (List.mem_cons_self p ps)
    simp only [walkFiles, if_neg hp, hokp, if_true]
    have hnd' := List.nodup_cons.mp hnd
    have hnew' : ∀ q ∈ ps, q ∉ (stepState of s p).processed_paths := by
      intro q hq hmem
      rcases List.mem_append.mp hmem with h | h
      · exact hnew q (List.mem_cons_of_mem p hq) h
      · have hqp : q = p := by simpa using h
        exact hnd'.1 (hqp ▸ hq)
    rw [ih (stepState of s p) hnd'.2 hnew' (fun q hq => hok q (List.mem_cons_of_mem p hq))]
    have harith : s.image_index + 1 + ps.length = s.image_index + (ps.length + 1) := by omega
    simp only [stepState, newEntries, namesFrom, List.length_cons, harith,
      List.append_assoc, List.singleton_append]

theorem walkFiles_ok_shape (of : String) (ok : String → Bool) :
    ∀ (D : List String) (s s' : WalkState), walkFiles of ok D s = .ok s' →
    ∃ qs : List String, (∀ p ∈ qs, p ∈ D) ∧
      s'.processed_images = s.processed_images ++ newEntries of s.image_index qs ∧
      s'.processed_paths = s.processed_paths ++ qs ∧
      s'.image_index = s.image_index + qs.length ∧
      s'.written = s.written ++ namesFrom of s.image_index qs.length := by
  intro D
  induction D with
  | nil =>
    intro s s' h
    have hs : s = s' := by simpa [walkFiles] using h
    exact ⟨[], by simp, by simp [hs.symm, newEntries, namesFrom]⟩
  | cons p ps ih =>
    intro s s' h
    simp only [walkFiles] at h
    by_cases hp : p ∈ s.processed_paths
    · rw [if_pos hp] at h
      obtain ⟨qs, hqs, h1, h2, h3, h4⟩ := ih s s' h
      exact ⟨qs, fun q hq => List.mem_cons_of_mem p (hqs q hq), h1, h2, h3, h4⟩
    · rw [if_neg hp] at h
      cases hok : ok p with
      | false => rw [hok] at h; simp at h
      | true =>
        rw [hok] at h
        simp only [if_true] at h
        obtain ⟨qs, hqs, h1, h2, h3, h4⟩ := ih _ s' h
        refine ⟨p :: qs, ?_, ?_, ?_, ?_, ?_⟩
        · intro q hq
          rcases List.mem_cons.mp hq with h' | h'
          · exact h' ▸ List.mem_cons_self p ps
          · exact List.mem_cons_of_mem p (hqs q h')
        · rw [h1]; simp [stepState, newEntries, List.append_assoc]
        · rw [h2]; simp [stepState, List.append_assoc]
        · rw [h3]; simp only [stepState, List.length_cons]; omega
        · rw [h4]; simp [stepState, namesFrom, List.append_assoc]

theorem walkFiles_discovered_seen (of : String) (ok : String → Bool) :
    ∀ (D : List String) (s s' : WalkState), walkFiles of ok D s = .ok s' →
    ∀ p ∈ D, p ∈ s'.processed_paths := by
  intro D
  induction D with
  | nil => intro s s' _ p hp; simp at hp
  | cons q qs ih =>
    intro s s' h p hp
    simp only [walkFiles] at h
    by_cases hq : q ∈ s.processed_paths
    · rw [if_pos hq] at h
      rcases List.mem_cons.mp hp with h' | h'
      · obtain ⟨_, _, _, h2, _, _⟩ := walkFiles_ok_shape of ok qs s s' h
        rw [h2]
        exact List.mem_append_left _ (h' ▸ hq)
      · exact ih s s' h p h'
    · rw [if_neg hq] at h
      cases hok : ok q with
      | false => rw [hok] at h; simp at h
      | true =>
        rw [hok] at h
        simp only [if_true] at h
        rcases List.mem_cons.mp hp with h' | h'
        · obtain ⟨_, _, _, h2, _, _⟩ := walkFiles_ok_shape of ok qs _ s' h
          rw [h2]
          refine List.mem_append_left _ ?_
          simp [stepState, h']
        · exact ih _ s' h p h'

theorem pruneLoop_fst (D : List String) :
    ∀ (es : List Entry) (disk : List String),
    (pruneLoop D es disk).1 = es.filter (fun e => decide (e.input_path ∈ D)) := by
  intro es
  induction es with
  | nil => intro disk; simp [pruneLoop]
  | cons e es ih =>
    intro disk
    by_cases h : e.input_path ∈ D
    · simp [pruneLoop, h, ih]
    · by_cases h2 : e.output_path ∈ disk <;> simp [pruneLoop, h, h2, ih]

theorem pruneLoop_all_kept (D : List String) :
    ∀ (es : List Entry) (disk : List String), (∀ e ∈ es, e.input_path ∈ D) →
    pruneLoop D es disk = (es, []) := by
  intro es
  induction es with
  | nil => intro disk _; rfl
  | cons e es ih =>
    intro disk hall
    have he : e.input_path ∈ D := hall e (List.mem_cons_self e es)
    simp [pruneLoop, he, ih disk (fun f hf => hall f (List.mem_cons_of_mem e hf))]

theorem pruneLoop_deleted_mem (D : List String) :
    ∀ (es : List Entry) (disk : List String) (e : Entry), e ∈ es →
    e.input_path ∉ D → e.output_path ∈ disk →
    e.output_path ∈ (pruneLoop D es disk).2 := by
  intro es
  induction es with
  | nil => intro disk e he; simp at he
  | cons f es ih =>
    intro disk e he hnotin hdisk
    by_cases hf : f.input_path ∈ D
    · simp only [pruneLoop, if_pos hf]
      rcases List.mem_cons.mp he with h' | h'
      · exact absurd hf (h' ▸ hnotin)
      · exact ih disk e h' hnotin hdisk
    · by_cases hfd : f.output_path ∈ disk
      · simp only [pruneLoop, if_neg hf, if_pos hfd]
        by_cases hsame : e.output_path = f.output_path
        · exact hsame ▸ List.mem_cons_self _ _
        · rcases List.mem_cons.mp he with h' | h'
          · exact absurd (congrArg Entry.output_path h') hsame
          · refine List.mem_cons_of_mem _ ?_
            exact ih _ e h' hnotin ((List.mem_erase_of_ne hsame).mpr hdisk)
      · simp only [pruneLoop, if_neg hf, if_neg hfd]
        rcases List.mem_cons.mp he with h' | h'
        · exact absurd (h' ▸ hdisk) hfd
        · exact ih disk e h' hnotin hdisk

theorem diskAfterWalk_subset :
    ∀ (w disk : List String) (x : String), x ∈ disk → x ∈ diskAfterWalk disk w := by
  intro w
  induction w with
  | nil => intro disk x hx; simpa [diskAfterWalk] using hx
  | cons p ps ih =>
    intro disk x hx
    simp only [diskAfterWalk, List.foldl_cons]
    by_cases h : p ∈ disk
    · simpa [diskAfterWalk, h] using ih disk x hx
    · have hx2 : x ∈ disk ++ [p] := List.mem_append_left _ hx
      simpa [diskAfterWalk, h] using ih (disk ++ [p]) x hx2

theorem resize_unfold (of : String) (ok : String → Bool) (D : List String)
    (lf : LedgerFileState) (disk : List String) :
    resize_images_in_folder of ok D lf disk =
      match walkFiles of ok D (startState lf) with
      | .error e => .error e
      | .ok s =>
        .ok ⟨(pruneLoop D s.processed_images (diskAfterWalk disk s.written)).1, s.written,
             (pruneLoop D s.processed_images (diskAfterWalk disk s.written)).2⟩ := rfl

theorem resize_eq_ok (of : String) (ok : String → Bool) (D : List String)
    (lf : LedgerFileState) (disk : List String) (s : WalkState)
    (h : walkFiles of ok D (startState lf) = .ok s) :
    resize_images_in_folder of ok D lf disk =
      .ok ⟨(pruneLoop D s.processed_images (diskAfterWalk disk s.written)).1, s.written,
           (pruneLoop D s.processed_images (diskAfterWalk disk s.written)).2⟩ := by
  rw [resize_unfold, h]

theorem resize_ok_inv (of : String) (ok : String → Bool) (D : List String)
    (lf : LedgerFileState) (disk : List String) (r : RunResult)
    (h : resize_images_in_folder of ok D lf disk = .ok r) :
    ∃ s : WalkState, walkFiles of ok D (startState lf) = .ok s ∧
      r = ⟨(pruneLoop D s.processed_images (diskAfterWalk disk s.written)).1, s.written,
           (pruneLoop D s.processed_images (diskAfterWalk disk s.written)).2⟩ := by
  rw [resize_unfold] at h
  cases hw : walkFiles of ok D (startState lf) with
  | error e => rw [hw] at h; simp at h
  | ok s =>
    rw [hw] at h
    simp only [Except.ok.injEq] at h
    exact ⟨s, rfl, h.symm⟩

/-- Helper: after a successful run, every persisted entry's input is
among the discovered paths, and every discovered path is the input of
some persisted entry. -/
theorem run_ledger_facts (of : String) (ok : String → Bool) (D : List String)
    (lf : LedgerFileState) (disk : List String) (r : RunResult)
    (h : resize_images_in_folder of ok D lf disk = .ok r) :
    (∀ e ∈ r.ledger, e.input_path ∈ D) ∧
    (∀ p ∈ D, p ∈ r.ledger.map Entry.input_path) := by
  obtain ⟨s, hw, hr⟩ := resize_ok_inv of ok D lf disk r h
  have hled : r.ledger =
      s.processed_images.filter (fun e => decide (e.input_path ∈ D)) := by
    rw [hr]
    exact pruneLoop_fst D s.processed_images (diskAfterWalk disk s.written)
  obtain ⟨qs, hqs, h1, h2, h3, h4⟩ := walkFiles_ok_shape of ok D _ s hw
  have hppeq : s.processed_paths = s.processed_images.map Entry.input_path := by
    rw [h1, h2]
    simp [startState, newEntries_map_input]
  constructor
  · intro e he
    rw [hled] at he
    simpa using (List.mem_filter.mp he).2
  · intro p hp
    have hpp := walkFiles_discovered_seen of ok D _ s hw p hp
    rw [hppeq] at hpp
    obtain ⟨e, he, hei⟩ := List.mem_map.mp hpp
    refine List.mem_map.mpr ⟨e, ?_, hei⟩
    rw [hled]
    exact List.mem_filter.mpr ⟨he, by simp [hei, hp]⟩

/-- C1: running the walker a second time over the same discovered paths,
loading the ledger the first run persisted, writes no output file,
deletes nothing, and persists a ledger equal to the one it loaded. -/
theorem walker_idempotent (of : String) (ok ok2 : String → Bool) (D : List String)
    (lf : LedgerFileState) (disk disk2 : List String) (r : RunResult)
    (h : resize_images_in_folder of ok D lf disk = .ok r) :
    resize_images_in_folder of ok2 D (.goodJson (.jlist r.ledger)) disk2 =
      .ok ⟨r.ledger, [], []⟩ := by
  obtain ⟨hsub, hmem⟩ := run_ledger_facts of ok D lf disk r h
  have hseen : walkFiles of ok2 D (startState (.goodJson (.jlist r.ledger))) =
      .ok (startState (.goodJson (.jlist r.ledger))) := by
    apply walkFiles_all_seen
    intro p hp
    simpa [startState, load_processed_images] using hmem p hp
  rw [resize_eq_ok of ok2 D _ disk2 _ hseen]
  have hkept := pruneLoop_all_kept D
    (startState (.goodJson (.jlist r.ledger))).processed_images
    (diskAfterWalk disk2 (startState (.goodJson (.jlist r.ledger))).written)
    (by intro e he; exact hsub e (by simpa [startState, load_processed_images] using he))
  rw [hkept]
  simp [startState, load_processed_images]

/-- C1 witness: a concrete first run on one input, then the second run
on the unchanged directory and the persisted ledger. -/
theorem walker_idempotent_witness :
    resize_images_in_folder sOut okAll [pA] .absent [] = .ok R1 ∧
    resize_images_in_folder sOut okAll [pA] (.goodJson (.jlist R1.ledger)) [] =
      .ok ⟨R1.ledger, [], []⟩ :=
  ⟨rfl, walker_idempotent sOut okAll okAll [pA] .absent [] [] R1 rfl⟩

/-- C2 counterexample: with a loaded ledger of 3 entries and 2 new
files, the outputs are 4.jpg and 5.jpg, not 3.jpg and 4.jpg as the
claim states, because `image_index` starts at count + 1 (process.py
lines 110-112). -/
theorem numbering_start_cex :
    runWritten (resize_images_in_folder sOut okAll [pA, pB, pC, pD, pE]
      (.goodJson (.jlist ledger3)) []) = [outName sOut 4, outName sOut 5] ∧
    runWritten (resize_images_in_folder sOut okAll [pA, pB, pC, pD, pE]
      (.goodJson (.jlist ledger3)) []) ≠ [outName sOut 3, outName sOut 4] := by
  decide

/-- C2 amended: the output index starts at 0 when the loaded ledger is
empty and at its entry count plus one otherwise, and increments once per
newly processed file; a run over fresh files writes exactly the
consecutive numbered names from that start. -/
theorem numbering_start (of : String) (ok : String → Bool) (D : List String)
    (L : List Entry) (disk : List String)
    (hnd : D.Nodup) (hnew : ∀ p ∈ D, p ∉ L.map Entry.input_path)
    (hok : ∀ p ∈ D, ok p = true) :
    runWritten (resize_images_in_folder of ok D (.goodJson (.jlist L)) disk) =
      namesFrom of (initIndex L.length) D.length := by
  have hwalk := walkFiles_all_new of ok D (startState (.goodJson (.jlist L))) hnd
    (by intro p hp; simpa [startState, load_processed_images] using hnew p hp) hok
  rw [resize_eq_ok of ok D _ disk _ hwalk]
  simp [runWritten, startState, load_processed_images]

/-- C2 amended witness: two new files against the three-entry ledger get
the names starting at index 4. -/
theorem numbering_start_witness :
    runWritten (resize_images_in_folder sOut okAll [pD, pE]
      (.goodJson (.jlist ledger3)) []) = namesFrom sOut (initIndex ledger3.length) 2 :=
  numbering_start sOut okAll [pD, pE] ledger3 [] (by decide) (by decide) (by decide)

/-- C3: `process_image` is called with no exception handling (process.py
lines 113-136), so one failing file aborts the whole walk: with a
non-decodable second file, the run raises instead of skipping it — the
third file is never processed and nothing (not even the first file's
successful conversion) is recorded or persisted. -/
theorem failing_file_aborts :
    resize_images_in_folder sOut okBad [pA, pBad, pC] .absent [] = .error () := rfl

/-- C4 counterexample: after pruning shrinks the ledger, the start index
falls back and an output name from an earlier run is reused — run 2
writes 3.jpg for input c, and run 3 writes 3.jpg again for input d,
leaving two ledger entries with the same output name. -/
theorem numbering_reuse_cex :
    runWritten chainRun2 = [outName sOut 2, outName sOut 3] ∧
    runWritten chainRun3 = [outName sOut 3] ∧
    runLedger chainRun3 =
      [⟨pB, outName sOut 2⟩, ⟨pC, outName sOut 3⟩, ⟨pD, outName sOut 3⟩] := by
  decide

/-- C4 amended: in a run that prunes nothing (every recorded input is
still discovered) and whose loaded ledger satisfies the index bound
`NamesBounded`, the newly written names differ from every recorded name,
are pairwise distinct, and the persisted ledger satisfies the bound
again — so numbering is never reused along prune-free chains of runs.
(With pruning the bound breaks and names are reused, see the
counterexample.) -/
theorem numbering_fresh (of : String) (ok : String → Bool) (D : List String)
    (L : List Entry) (disk : List String) (r : RunResult)
    (hB : NamesBounded of L)
    (hkeep : ∀ e ∈ L, e.input_path ∈ D)
    (h : resize_images_in_folder of ok D (.goodJson (.jlist L)) disk = .ok r) :
    (∀ w ∈ r.written, ∀ e ∈ L, w ≠ e.output_path) ∧
    r.written.Nodup ∧ NamesBounded of r.ledger := by
  obtain ⟨s, hw, hr⟩ := resize_ok_inv of ok D _ disk r h
  obtain ⟨qs, hqs, h1, h2, h3, h4⟩ := walkFiles_ok_shape of ok D _ s hw
  have hwritten : r.written = namesFrom of (initIndex L.length) qs.length := by
    rw [hr]
    simpa [startState, load_processed_images] using h4
  have hpi : s.processed_images = L ++ newEntries of (initIndex L.length) qs := by
    simpa [startState, load_processed_images] using h1
  have hledger : r.ledger = L ++ newEntries of (initIndex L.length) qs := by
    rw [hr]
    simp only [pruneLoop_fst, hpi]
    apply List.filter_eq_self.mpr
    intro e he
    simp only [decide_eq_true_eq]
    rcases List.mem_append.mp he with h' | h'
    · exact hkeep e h'
    · have hin : e.input_path ∈ qs := by
        rw [← newEntries_map_input of (initIndex L.length) qs]
        exact List.mem_map_of_mem Entry.input_path h'
      exact hqs _ hin
  refine ⟨?_, ?_, ?_⟩
  · intro w hwmem e he heq
    rw [hwritten] at hwmem
    obtain ⟨i, hi, hwi⟩ := namesFrom_mem of qs.length _ w hwmem
    obtain ⟨n, hn, hne⟩ := hB e he
    have hL0 : L.length ≠ 0 := by
      intro h0
      rw [List.length_eq_zero] at h0
      exact absurd (h0 ▸ he) (List.not_mem_nil e)
    have hinit : initIndex L.length = L.length + 1 := by simp [initIndex, hL0]
    have hnlt : n < L.length + 1 := List.mem_range.mp hn
    have hij : initIndex L.length + i = n := outName_inj (by rw [← hwi, ← hne, heq])
    omega
  · rw [hwritten]
    exact namesFrom_nodup of qs.length _
  · intro e he
    rw [hledger] at he ⊢
    have hlen : (L ++ newEntries of (initIndex L.length) qs).length =
        L.length + qs.length := by
      simp [newEntries_length]
    rw [hlen]
    rcases List.mem_append.mp he with h' | h'
    · obtain ⟨n, hn, hne⟩ := hB e h'
      have hn' := List.mem_range.mp hn
      exact ⟨n, List.mem_range.mpr (by omega), hne⟩
    · obtain ⟨i, hi, hie⟩ := newEntries_output_mem of _ qs e h'
      refine ⟨initIndex L.length + i, List.mem_range.mpr ?_, hie⟩
      by_cases hL0 : L.length = 0
      · simp only [initIndex, hL0, if_true]
        omega
      · simp only [initIndex, hL0, if_false]
        omega

/-- C4 amended witness: a prune-free run over a bounded one-entry
ledger; the new name is fresh and the bound is preserved. -/
theorem numbering_fresh_witness :
    (∀ w ∈ R4.written, ∀ e ∈ L4, w ≠ e.output_path) ∧
    R4.written.Nodup ∧ NamesBounded sOut R4.ledger :=
  numbering_fresh sOut okAll [pA, pB] L4 [] R4 (by decide) (by decide) rfl

/-- C5: for a ledger entry whose input is no longer discovered, the run
drops the entry from the persisted ledger, and deletes its output file
whenever that file exists on disk. -/
theorem prune_removes (of : String) (ok : String → Bool) (D : List String)
    (L : List Entry) (disk : List String) (r : RunResult) (e : Entry)
    (h : resize_images_in_folder of ok D (.goodJson (.jlist L)) disk = .ok r)
    (he : e ∈ L) (hgone : e.input_path ∉ D) :
    e.input_path ∉ r.ledger.map Entry.input_path ∧
    (e.output_path ∈ disk → e.output_path ∈ r.deleted) := by
  obtain ⟨s, hw, hr⟩ := resize_ok_inv of ok D _ disk r h
  obtain ⟨qs, hqs, h1, h2, h3, h4⟩ := walkFiles_ok_shape of ok D _ s hw
  have hmem : e ∈ s.processed_images := by
    rw [h1]
    exact List.mem_append_left _ (by simpa [startState, load_processed_images] using he)
  constructor
  · intro hmm
    rw [hr] at hmm
    simp only [pruneLoop_fst] at hmm
    obtain ⟨f, hf, hfe⟩ := List.mem_map.mp hmm
    have hfin := (List.mem_filter.mp hf).2
    simp only [decide_eq_true_eq] at hfin
    exact hgone (hfe ▸ hfin)
  · intro hd
    rw [hr]
    exact pruneLoop_deleted_mem D s.processed_images _ e hmem hgone
      (diskAfterWalk_subset s.written _ e.output_path hd)

/-- C5 witness: input a, processed earlier to 0.jpg, is removed from the
input folder; the re-run deletes 0.jpg and drops a's entry. -/
theorem prune_removes_witness :
    eA.input_path ∉ R5.ledger.map Entry.input_path ∧
    (eA.output_path ∈ [outName sOut 0] → eA.output_path ∈ R5.deleted) :=
  prune_removes sOut okAll [] [eA] [outName sOut 0] R5 eA rfl (by decide) (by decide)

/-- C6 counterexample: an absent ledger file loads as the empty list
silently — no warning is printed, contrary to the claim that all three
failure cases warn (process.py line 100 returns without printing). -/
theorem load_absent_silent : (load_processed_images LedgerFileState.absent).2 = false := rfl

/-- C6 amended: an absent ledger file yields an empty ledger with no
warning; an empty or malformed ledger file yields an empty ledger with
the warning; no unhandled error is raised, and in every case the run
proceeds exactly as if the ledger were empty, re-processing all
discovered inputs. -/
theorem load_failsoft :
    load_processed_images .absent = ([], false) ∧
    load_processed_images .badJson = ([], true) ∧
    (∀ (of : String) (ok : String → Bool) (D disk : List String),
      resize_images_in_folder of ok D .absent disk =
        resize_images_in_folder of ok D (.goodJson (.jlist [])) disk) ∧
    (∀ (of : String) (ok : String → Bool) (D disk : List String),
      resize_images_in_folder of ok D .badJson disk =
        resize_images_in_folder of ok D (.goodJson (.jlist [])) disk) :=
  ⟨rfl, rfl, fun _ _ _ _ => rfl, fun _ _ _ _ => rfl⟩

/-- C7: the composite transformation of `process_image` returns an image
of exactly the target dimensions, for every source image and both
background modes, because the final `resize` (process.py line 85) forces
the target size. -/
theorem composite_dims (img : Img) (b : Bool) (tw th : ℕ)
    (hw : 0 < img.width) (hh : 0 < img.height) (htw : 0 < tw) (hth : 0 < th) :
    process_image_transform img b tw th = ⟨tw, th⟩ := rfl

/-- C7 witness: a concrete 4x3 source with the blurred background and
the program's example target 2000x1200. -/
theorem composite_dims_witness :
    process_image_transform ⟨4, 3⟩ true 2000 1200 = ⟨2000, 1200⟩ :=
  composite_dims ⟨4, 3⟩ true 2000 1200 (by decide) (by decide) (by decide) (by decide)

theorem cond53_iff (w h : ℕ) (hh : 0 < h) :
    ((w : ℚ) / (h : ℚ) > 5 / 3) ↔ 5 * h < 3 * w := by
  have hh' : (0 : ℚ) < (h : ℚ) := by exact_mod_cast hh
  rw [gt_iff_lt, div_lt_div_iff₀ (by norm_num : (0 : ℚ) < 3) hh']
  rw [show (5 : ℚ) * (h : ℚ) = ((5 * h : ℕ) : ℚ) by push_cast; ring,
    show (w : ℚ) * 3 = ((3 * w : ℕ) : ℚ) by push_cast; ring, Nat.cast_lt]

theorem floor_div_53 (w : ℕ) : ⌊(w : ℚ) / (5 / 3)⌋₊ = 3 * w / 5 := by
  have h : (w : ℚ) / (5 / 3) = ((3 * w : ℕ) : ℚ) / ((5 : ℕ) : ℚ) := by push_cast; ring
  rw [h, Nat.floor_div_nat, Nat.floor_natCast]

theorem floor_mul_53 (h : ℕ) : ⌊(h : ℚ) * (5 / 3)⌋₊ = 5 * h / 3 := by
  have h2 : (h : ℚ) * (5 / 3) = ((5 * h : ℕ) : ℚ) / ((3 : ℕ) : ℚ) := by push_cast; ring
  rw [h2, Nat.floor_div_nat, Nat.floor_natCast]

/-- C8: the crop box of `crop_to_aspect_ratio` keeps one dimension, sets
the other to the floor of the exact value for the target ratio (so the
resulting ratio matches the target within integer-rounding tolerance),
lies fully inside the original bounds, centers with offsets
`(originalDim - newDim) / 2` truncated, and leaves the odd extra pixel
on the trailing (right/bottom) side. -/
theorem crop_centered (w h : ℕ) (tr : ℚ) (hw : 0 < w) (hh : 0 < h) (htr : 0 < tr) :
    ∃ nw nh : ℕ, nw ≤ w ∧ nh ≤ h ∧
      cropBox w h tr = ⟨(w - nw) / 2, (h - nh) / 2, (w - nw) / 2 + nw, (h - nh) / 2 + nh⟩ ∧
      (w - nw) / 2 + nw ≤ w ∧ (h - nh) / 2 + nh ≤ h ∧
      w - ((w - nw) / 2 + nw) = (w - nw) / 2 + (w - nw) % 2 ∧
      h - ((h - nh) / 2 + nh) = (h - nh) / 2 + (h - nh) % 2 ∧
      (nw : ℚ) < ((nh : ℚ) + 1) * tr ∧ (nh : ℚ) * tr < (nw : ℚ) + 1 ∧
      ((w : ℚ) / (h : ℚ) > tr → nw = ⌊(h : ℚ) * tr⌋₊ ∧ nh = h) ∧
      (¬((w : ℚ) / (h : ℚ) > tr) → nw = w ∧ nh = ⌊(w : ℚ) / tr⌋₊) := by
  have hh' : (0 : ℚ) < (h : ℚ) := by exact_mod_cast hh
  by_cases hc : (w : ℚ) / (h : ℚ) > tr
  · refine ⟨⌊(h : ℚ) * tr⌋₊, h, ?_, le_refl h, ?_, ?_, ?_, ?_, ?_, ?_, ?_, ?_, ?_⟩
    · have h1 : tr * (h : ℚ) < w := (lt_div_iff₀ hh').mp hc
      have h2 : (⌊(h : ℚ) * tr⌋₊ : ℚ) ≤ (h : ℚ) * tr := Nat.floor_le (by positivity)
      have h3 : (⌊(h : ℚ) * tr⌋₊ : ℚ) < (w : ℚ) := by linarith [mul_comm (h : ℚ) tr]
      exact_mod_cast le_of_lt h3
    · rw [cropBox, if_pos hc]
      simp [Nat.sub_self]
    · have h1 : tr * (h : ℚ) < w := (lt_div_iff₀ hh').mp hc
      have h2 : (⌊(h : ℚ) * tr⌋₊ : ℚ) ≤ (h : ℚ) * tr := Nat.floor_le (by positivity)
      have h3 : (⌊(h : ℚ) * tr⌋₊ : ℚ) < (w : ℚ) := by linarith [mul_comm (h : ℚ) tr]
      have h4 : ⌊(h : ℚ) * tr⌋₊ ≤ w := by exact_mod_cast le_of_lt h3
      omega
    · omega
    · have h1 : tr * (h : ℚ) < w := (lt_div_iff₀ hh').mp hc
      have h2 : (⌊(h : ℚ) * tr⌋₊ : ℚ) ≤ (h : ℚ) * tr := Nat.floor_le (by positivity)
      have h3 : (⌊(h : ℚ) * tr⌋₊ : ℚ) < (w : ℚ) := by linarith [mul_comm (h : ℚ) tr]
      have h4 : ⌊(h : ℚ) * tr⌋₊ ≤ w := by exact_mod_cast le_of_lt h3
      omega
    · omega
    · have h2 : (⌊(h : ℚ) * tr⌋₊ : ℚ) ≤ (h : ℚ) * tr := Nat.floor_le (by positivity)
      have h5 : ((h : ℚ) + 1) * tr = (h : ℚ) * tr + tr := by ring
      linarith
    · have h6 := Nat.lt_floor_add_one ((h : ℚ) * tr)
      linarith
    · intro _; exact ⟨rfl, rfl⟩
    · intro hcon; exact absurd hc hcon
  · have hle : (w : ℚ) / (h : ℚ) ≤ tr := not_lt.mp hc
    have hwle : (w : ℚ) ≤ tr * (h : ℚ) := (div_le_iff₀ hh').mp hle
    have hnh_le : ⌊(w : ℚ) / tr⌋₊ ≤ h := by
      have h1 : (w : ℚ) / tr ≤ (h : ℚ) := by
        rw [div_le_iff₀ htr]
        linarith [mul_comm (h : ℚ) tr]
      calc ⌊(w : ℚ) / tr⌋₊ ≤ ⌊((h : ℕ) : ℚ)⌋₊ := Nat.floor_le_floor h1
        _ = h := Nat.floor_natCast h
    refine ⟨w, ⌊(w : ℚ) / tr⌋₊, le_refl w, hnh_le, ?_, ?_, ?_, ?_, ?_, ?_, ?_, ?_, ?_⟩
    · rw [cropBox, if_neg hc]
      simp [Nat.sub_self]
    · omega
    · omega
    · omega
    · omega
    · have h6 := Nat.lt_floor_add_one ((w : ℚ) / tr)
      have h7 : (w : ℚ) < ((⌊(w : ℚ) / tr⌋₊ : ℚ) + 1) * tr := by
        rw [← div_lt_iff₀ htr]
        exact h6
      exact h7
    · have h8 : (⌊(w : ℚ) / tr⌋₊ : ℚ) ≤ (w : ℚ) / tr := Nat.floor_le (by positivity)
      have h9 : (⌊(w : ℚ) / tr⌋₊ : ℚ) * tr ≤ (w : ℚ) := by
        calc (⌊(w : ℚ) / tr⌋₊ : ℚ) * tr ≤ ((w : ℚ) / tr) * tr :=
          mul_le_mul_of_nonneg_right h8 (le_of_lt htr)
        _ = (w : ℚ) := div_mul_cancel₀ _ (ne_of_gt htr)
      linarith
    · intro hcon; exact absurd hcon hc
    · intro _; exact ⟨rfl, rfl⟩

/-- C8 witness: a 4x3 image cropped to the 5:3 ratio. -/
theorem crop_centered_witness :
    ∃ nw nh : ℕ, nw ≤ 4 ∧ nh ≤ 3 ∧
      cropBox 4 3 (5 / 3) =
        ⟨(4 - nw) / 2, (3 - nh) / 2, (4 - nw) / 2 + nw, (3 - nh) / 2 + nh⟩ ∧
      (4 - nw) / 2 + nw ≤ 4 ∧ (3 - nh) / 2 + nh ≤ 3 ∧
      4 - ((4 - nw) / 2 + nw) = (4 - nw) / 2 + (4 - nw) % 2 ∧
      3 - ((3 - nh) / 2 + nh) = (3 - nh) / 2 + (3 - nh) % 2 ∧
      (nw : ℚ) < ((nh : ℚ) + 1) * (5 / 3) ∧ (nh : ℚ) * (5 / 3) < (nw : ℚ) + 1 ∧
      (((4 : ℕ) : ℚ) / ((3 : ℕ) : ℚ) > 5 / 3 →
        nw = ⌊((3 : ℕ) : ℚ) * (5 / 3)⌋₊ ∧ nh = 3) ∧
      (¬(((4 : ℕ) : ℚ) / ((3 : ℕ) : ℚ) > 5 / 3) →
        nw = 4 ∧ nh = ⌊((4 : ℕ) : ℚ) / (5 / 3)⌋₊) :=
  crop_centered 4 3 (5 / 3) (by norm_num) (by norm_num) (by norm_num)

/-- C9 counterexample: a 1x1 source yields a 1x1 intermediate canvas,
which does not exactly match the 5:3 ratio — the derived dimension is
floor-truncated, so exactness fails whenever it does not divide evenly. -/
theorem intermediate_not_53 :
    intermediateDims 1 1 = (1, 1) ∧
    3 * (intermediateDims 1 1).1 ≠ 5 * (intermediateDims 1 1).2 := by
  have hc : ¬(((1 : ℕ) : ℚ) / ((1 : ℕ) : ℚ) > 5 / 3) := by norm_num
  have h11 : intermediateDims 1 1 = (1, 1) := by
    rw [intermediateDims, if_neg hc, floor_mul_53]
  exact ⟨h11, by rw [h11]; decide⟩

/-- C9 amended: for a source with positive dimensions the intermediate
canvas is at least as large as the source in both dimensions and matches
the 5:3 ratio within integer rounding: `3 * newWidth` and
`5 * newHeight` differ by less than 5 (less than 3 on the other side),
but not exactly in general. -/
theorem intermediate_canvas (w h : ℕ) (hw : 0 < w) (hh : 0 < h) :
    w ≤ (intermediateDims w h).1 ∧ h ≤ (intermediateDims w h).2 ∧
    5 * (intermediateDims w h).2 < 3 * (intermediateDims w h).1 + 3 ∧
    3 * (intermediateDims w h).1 < 5 * (intermediateDims w h).2 + 5 := by
  by_cases hc : 5 * h < 3 * w
  · have hq : (w : ℚ) / (h : ℚ) > 5 / 3 := (cond53_iff w h hh).mpr hc
    simp only [intermediateDims, if_pos hq, floor_div_53]
    omega
  · have hq : ¬((w : ℚ) / (h : ℚ) > 5 / 3) := fun hcon => hc ((cond53_iff w h hh).mp hcon)
    simp only [intermediateDims, if_neg hq, floor_mul_53]
    omega

/-- C9 amended witness: a 4x3 source. -/
theorem intermediate_canvas_witness :
    4 ≤ (intermediateDims 4 3).1 ∧ 3 ≤ (intermediateDims 4 3).2 ∧
    5 * (intermediateDims 4 3).2 < 3 * (intermediateDims 4 3).1 + 3 ∧
    3 * (intermediateDims 4 3).1 < 5 * (intermediateDims 4 3).2 + 5 :=
  intermediate_canvas 4 3 (by decide) (by decide)

/-- C10: a ledger file holding valid JSON that is not an array loads as
the empty list with no warning (process.py line 96 falls back silently),
and the run proceeds exactly as with an empty ledger. -/
theorem load_non_array :
    load_processed_images (.goodJson .other) = ([], false) ∧
    ∀ (of : String) (ok : String → Bool) (D disk : List String),
      resize_images_in_folder of ok D (.goodJson .other) disk =
        resize_images_in_folder of ok D (.goodJson (.jlist [])) disk :=
  ⟨rfl, fun _ _ _ _ => rfl⟩
